import Mathlib

/-!
# Verification of the ordb search engine core

Shallow embedding of the query classifier, variant expander, search/matcher
functions and the whole-dictionary example finder of `src/ordb/core.py`,
together with the CLI search dispatch of `src/ordb/cli.py`.

Modelling conventions:
* Python strings are modelled as `List Char`; SQL `TEXT` columns that may be
  `NULL` are modelled as `Option (List Char)`.
* Case folding: the code mixes SQLite `COLLATE NOCASE` / `LIKE`
  (ASCII-only case folding) with Python `str.lower()`.  Both are modelled
  uniformly as ASCII case folding (`Char.toLower`); the two agree on ASCII
  text and on text with no upper-case non-ASCII letters.
* `LIKE '%v%'` (with the parameter string spliced between two `%`) is
  modelled as case-folded substring containment, i.e. for parameter strings
  free of the LIKE metacharacters `%` and `_`.
* SQL result sets without an `ORDER BY` are returned in table order; the
  Python-side sorts (`list.sort`, always stable) are modelled by a stable
  insertion sort.
* The similarity ratio of `difflib.SequenceMatcher` is external library
  code; the search functions are parametrised by the `ratio` function, and
  `similarity` performs the case folding exactly as `core.py` does.
-/

namespace Ordb

/-- ASCII-only case folding of one character (this is what both SQLite's
`NOCASE` collation and `Char.toLower` do). -/
def lowerC (c : Char) : Char := c.toLower

/-- Case folding of a Python string / SQL text value. -/
def lower (s : List Char) : List Char := s.map lowerC

/-- Python string comparison `<` (lexicographic on code points). -/
def charListLt : List Char → List Char → Bool
  | [], [] => false
  | [], _ :: _ => true
  | _ :: _, [] => false
  | a :: as, b :: bs => a < b || (a == b && charListLt as bs)

/-- `p` occurs as a contiguous sublist of `s`. -/
def isSubList (p : List Char) : List Char → Bool
  | [] => p.isEmpty
  | c :: rest => p.isPrefixOf (c :: rest) || isSubList p rest

/-- SQLite `field LIKE '%v%' COLLATE NOCASE` for a metacharacter-free `v`:
case-folded substring containment. -/
def likeContains (v field : List Char) : Bool :=
  isSubList (lower v) (lower field)

/-- `LIKE` against a nullable column: `NULL LIKE p` is not true. -/
def optLike (v : List Char) (f : Option (List Char)) : Bool :=
  match f with
  | none => false
  | some s => likeContains v s

/-- SQLite `field LIKE 'v%' COLLATE NOCASE`: case-folded prefix test. -/
def likeStarts (v field : List Char) : Bool :=
  (lower v).isPrefixOf (lower field)

/-- SQLite `a = b COLLATE NOCASE`: equality up to ASCII case. -/
def eqNocase (a b : List Char) : Bool :=
  lower a == lower b

/-- The separator `" | "` used to join `all_lemmas` and `inflections`. -/
def sepBar : List Char := ' ' :: '|' :: ' ' :: []

/-- Python `s.split(' | ')`. -/
def splitBar : List Char → List (List Char)
  | [] => [[]]
  | c :: rest =>
    if sepBar.isPrefixOf (c :: rest) then [] :: splitBar (rest.drop 2)
    else
      match splitBar rest with
      | [] => [[c]]
      | g :: gs => (c :: g) :: gs
termination_by s => s.length
decreasing_by
  all_goals simp_wf
  all_goals have hlen := List.length_drop 2 rest
  all_goals omega

/-- Python `s.split()` (split on whitespace runs, no empty tokens). -/
def splitWs : List Char → List (List Char)
  | [] => []
  | c :: rest =>
    let r := splitWs rest
    if c.isWhitespace then r
    else
      match rest with
      | [] => [[c]]
      | d :: _ =>
        if d.isWhitespace then [c] :: r
        else
          match r with
          | [] => [[c]]
          | w :: ws => (c :: w) :: ws

/-- Python `s.replace(p₁p₂, rep)` for a two-character pattern: replace every
occurrence, scanning left to right without overlap. -/
def replace2 (p₁ p₂ : Char) (rep : List Char) : List Char → List Char
  | [] => []
  | [c] => [c]
  | c₁ :: c₂ :: rest =>
    if c₁ == p₁ && c₂ == p₂ then rep ++ replace2 p₁ p₂ rep rest
    else c₁ :: replace2 p₁ p₂ rep (c₂ :: rest)
termination_by s => s.length

/-- Order-preserving de-duplication keyed by `key`, threading the set of
already-seen keys: the Python idiom
`for x in l: if key(x) not in seen: out.append(x); seen.add(key(x))`. -/
def dedupKeyed {α κ : Type} [DecidableEq κ] (key : α → κ) :
    List α → List κ → List α
  | [], _ => []
  | x :: xs, seen =>
    if key x ∈ seen then dedupKeyed key xs seen
    else x :: dedupKeyed key xs (key x :: seen)

/-- Insert `x` into `l` in front of the first element not strictly below it:
the insertion step of a stable sort with strict comparison `lt`. -/
def insertK {α : Type} (lt : α → α → Bool) (x : α) : List α → List α
  | [] => [x]
  | y :: ys => if lt y x then y :: insertK lt x ys else x :: y :: ys

/-- Stable insertion sort with strict comparison `lt`; models Python's
stable `list.sort(key=...)` with `lt` comparing the sort keys. -/
def sortStable {α : Type} (lt : α → α → Bool) : List α → List α
  | [] => []
  | x :: xs => insertK lt x (sortStable lt xs)

/-! ## Data model

One row of the `articles` table, as selected by every search function:
`article_id, lemma, all_lemmas, word_class, gender, inflections,
inflection_table, etymology, homonym_number`. -/

structure Article where
  article_id : Nat
  /-- `lemma` in the source; renamed because `lemma` is a Lean keyword. -/
  lemma_ : List Char
  all_lemmas : Option (List Char)
  word_class : Option (List Char)
  gender : Option (List Char)
  inflections : Option (List Char)
  inflection_table : Option (List Char)
  etymology : Option (List Char)
  homonym_number : Option Int
deriving DecidableEq, Repr

/-- One row of the `definitions` table (only the columns the embedded search
functions read: `id`, `article_id`, `content`). -/
structure DefRow where
  id : Nat
  article_id : Nat
  content : Option (List Char)
deriving DecidableEq, Repr

/-- One row of the `examples` table (only the columns the embedded search
functions read: `id`, `article_id`, `quote`, `explanation`). -/
structure ExRow where
  id : Nat
  article_id : Nat
  quote : Option (List Char)
  explanation : Option (List Char)
deriving DecidableEq, Repr

/-- The read-only corpus: the three tables the search engine queries. -/
structure Corpus where
  articles : List Article
  definitions : List DefRow
  examples : List ExRow

/-- Python `field.split(' | ') if field else []`: both `NULL` and the empty
string are falsy and give the empty list. -/
def splitField (f : Option (List Char)) : List (List Char) :=
  match f with
  | none => []
  | some s => if s.isEmpty then [] else splitBar s

/-- The `all_lemmas` column split into its elements. -/
def pyAllLemmas (a : Article) : List (List Char) := splitField a.all_lemmas

/-- The `inflections` column split into its elements. -/
def pyInflections (a : Article) : List (List Char) := splitField a.inflections

/-- The SQL fragment `AND word_class != 'EXPR'` appended when
`include_expr` is false; a `NULL` `word_class` fails the comparison. -/
def exprOK (include_expr : Bool) (a : Article) : Bool :=
  include_expr ||
    match a.word_class with
    | none => false
    | some w => decide (w ≠ "EXPR".toList)

/-! ## Variant expander

`apply_character_replacement` is imported by `core.py` from
`src/ordb/config.py`, which is not among the provided sources. -/

/-- Order-preserving de-duplication of a list of strings. -/
def dedupList (l : List (List Char)) : List (List Char) :=
  dedupKeyed (fun s => s) l []

/-- Modelled from the spec: `apply_character_replacement` is defined in
`src/ordb/config.py`, a repository file not present under the provided
sources (`core.py` only imports it).  Spec §4.2: the original term first,
then — only when character replacement is enabled — the term with each of
the three digraph substitutions `aa`→`å`, `oe`→`ø`, `ae`→`æ` applied
independently, each variant appended only if it differs (case-sensitively)
from terms already in the sequence; no combination of multiple simultaneous
substitutions. -/
def apply_character_replacement (enabled : Bool) (term : List Char) :
    List (List Char) :=
  let subs :=
    if enabled then
      [replace2 'a' 'a' ['å'] term,
       replace2 'o' 'e' ['ø'] term,
       replace2 'a' 'e' ['æ'] term]
    else []
  dedupList (term :: subs)

/-! ## Query classifier (`parse_search_query`, core.py lines 220–240) -/

/-- Python `s.startswith(c)` for a single character: head test. -/
def startsC (c : Char) (s : List Char) : Bool := s.head? == some c

/-- Python `s.endswith(c)` for a single character: last-element test. -/
def endsC (c : Char) (s : List Char) : Bool := s.getLast? == some c

/-- `parse_search_query(query)`: determine search type and clean query.
Returns `(search_type, query, original_query)` exactly as the source;
`query[1:]` is `drop 1` and `query[:-1]` is `dropLast`. -/
def parse_search_query (query : List Char) : String × List Char × List Char :=
  if startsC '%' query then ("fulltext", query.drop 1, query)
  else if endsC '@' query && !startsC '@' query then
    ("prefix", query.dropLast, query)
  else if startsC '@' query then
    let q := query.drop 1
    ("anywhere_term", if endsC '@' q then q.dropLast else q, query)
  else ("exact", query, query)

/-! ## Matchers (core.py `search_*` functions)

Each search function runs one or two SQL queries per variant, appends the
fetched rows skipping already-seen `article_id`s, and finally sorts.  The
per-variant row streams are modelled as `...Raw` definitions; the
seen-set loop is `dedupKeyed`. -/

/-- The Python whole-element check of `search_exact`: the variant equals
(after `.lower()`) a whole element of `all_lemmas` or of `inflections`. -/
def wholeElemCheck (v : List Char) (a : Article) : Bool :=
  ((pyAllLemmas a).map lower).contains (lower v) ||
    ((pyInflections a).map lower).contains (lower v)

/-- The rows `search_exact` fetches and keeps for one variant: the
lemma-equality query, then the `all_lemmas`/`inflections` `LIKE` query
restricted by the whole-element check. -/
def exactHits (db : List Article) (v : List Char) (ie : Bool) : List Article :=
  db.filter (fun a => eqNocase a.lemma_ v && exprOK ie a) ++
    (db.filter (fun a =>
        (optLike v a.all_lemmas || optLike v a.inflections) && exprOK ie a)).filter
      (fun a => wholeElemCheck v a)

/-- All raw hits of `search_exact` across the query variants, in encounter
order. -/
def exactRaw (db : List Article) (en : Bool) (q : List Char) (ie : Bool) :
    List Article :=
  (apply_character_replacement en q).flatMap (fun v => exactHits db v ie)

/-- The sort key of `search_exact`: homonym number (`NULL` as 1), word-class
priority (NOUN=0, VERB=1, ADJ=2, ADV=3, else 4), lemma length. -/
def wcPriority (a : Article) : Nat :=
  match a.word_class with
  | some w =>
    if w = "NOUN".toList then 0
    else if w = "VERB".toList then 1
    else if w = "ADJ".toList then 2
    else if w = "ADV".toList then 3
    else 4
  | none => 4

/-- Homonym number with `NULL` treated as 1. -/
def homKey (a : Article) : Int := a.homonym_number.getD 1

/-- Strict lexicographic comparison of the `search_exact` sort keys
(Python tuple `<`). -/
def exactLt (a b : Article) : Bool :=
  homKey a < homKey b ||
    (homKey a == homKey b &&
      (wcPriority a < wcPriority b ||
        (wcPriority a == wcPriority b && a.lemma_.length < b.lemma_.length)))

/-- `search_exact(conn, query, include_expr=True)`. -/
def search_exact (db : List Article) (en : Bool) (q : List Char)
    (ie : Bool := true) : List Article :=
  sortStable exactLt (dedupKeyed Article.article_id (exactRaw db en q ie) [])

/-- Strict comparison by lemma length (the sort of all substring-style
searches: `results.sort(key=lambda x: len(x[1]))`). -/
def lenLt (a b : Article) : Bool := a.lemma_.length < b.lemma_.length

/-- The Python prefix check of `search_prefix`: some non-empty term among
`[lemma] + all_lemmas + inflections` starts (case-folded) with the variant. -/
def prefixCheck (v : List Char) (a : Article) : Bool :=
  (a.lemma_ :: (pyAllLemmas a ++ pyInflections a)).any
    (fun t => !t.isEmpty && (lower v).isPrefixOf (lower t))

/-- The rows `search_prefix` fetches and keeps for one variant. -/
def prefixHits (db : List Article) (v : List Char) (ie : Bool) : List Article :=
  (db.filter (fun a =>
      (likeStarts v a.lemma_ || optLike v a.all_lemmas ||
        optLike v a.inflections) && exprOK ie a)).filter
    (fun a => prefixCheck v a)

/-- All raw hits of `search_prefix` across the query variants. -/
def prefixRaw (db : List Article) (en : Bool) (q : List Char) (ie : Bool) :
    List Article :=
  (apply_character_replacement en q).flatMap (fun v => prefixHits db v ie)

/-- `search_prefix(conn, query, include_expr=False)`. -/
def search_prefix (db : List Article) (en : Bool) (q : List Char)
    (ie : Bool := false) : List Article :=
  sortStable lenLt (dedupKeyed Article.article_id (prefixRaw db en q ie) [])

/-- All raw hits of `search_anywhere_term` across the query variants. -/
def anywhereTermRaw (db : List Article) (en : Bool) (q : List Char)
    (ie : Bool) : List Article :=
  (apply_character_replacement en q).flatMap (fun v =>
    db.filter (fun a =>
      (likeContains v a.lemma_ || optLike v a.all_lemmas ||
        optLike v a.inflections) && exprOK ie a))

/-- `search_anywhere_term(conn, query, include_expr=False)`. -/
def search_anywhere_term (db : List Article) (en : Bool) (q : List Char)
    (ie : Bool := false) : List Article :=
  sortStable lenLt (dedupKeyed Article.article_id (anywhereTermRaw db en q ie) [])

/-- The `WHERE` predicate of the `search_fulltext` query for one variant:
article text fields, joined definition contents and example quotes. -/
def fulltextPred (C : Corpus) (v : List Char) (a : Article) : Bool :=
  likeContains v a.lemma_ || optLike v a.all_lemmas ||
    optLike v a.inflections ||
    C.definitions.any (fun d => d.article_id == a.article_id && optLike v d.content) ||
    C.examples.any (fun e => e.article_id == a.article_id && optLike v e.quote) ||
    optLike v a.etymology

/-- All raw hits of `search_fulltext` across the query variants. -/
def fulltextRaw (C : Corpus) (en : Bool) (q : List Char) (ie : Bool) :
    List Article :=
  (apply_character_replacement en q).flatMap (fun v =>
    C.articles.filter (fun a => fulltextPred C v a && exprOK ie a))

/-- `search_fulltext(conn, query, include_expr=False)`. -/
def search_fulltext (C : Corpus) (en : Bool) (q : List Char)
    (ie : Bool := false) : List Article :=
  sortStable lenLt (dedupKeyed Article.article_id (fulltextRaw C en q ie) [])

/-- The `WHERE` predicate of the `search_anywhere` query for one variant:
definition contents, example quotes, or `all_lemmas`. -/
def anywherePred (C : Corpus) (v : List Char) (a : Article) : Bool :=
  C.definitions.any (fun d => d.article_id == a.article_id && optLike v d.content) ||
    C.examples.any (fun e => e.article_id == a.article_id && optLike v e.quote) ||
    optLike v a.all_lemmas

/-- All raw hits of `search_anywhere` across the query variants. -/
def anywhereRaw (C : Corpus) (en : Bool) (q : List Char) (ie : Bool) :
    List Article :=
  (apply_character_replacement en q).flatMap (fun v =>
    C.articles.filter (fun a => anywherePred C v a && exprOK ie a))

/-- `search_anywhere(conn, query, include_expr=False)`. -/
def search_anywhere (C : Corpus) (en : Bool) (q : List Char)
    (ie : Bool := false) : List Article :=
  sortStable lenLt (dedupKeyed Article.article_id (anywhereRaw C en q ie) [])

/-- All raw hits of `search_expressions_only` across the query variants:
`word_class = 'EXPR'` and the variant contained in `lemma` or `all_lemmas`. -/
def exprOnlyRaw (db : List Article) (en : Bool) (q : List Char) :
    List Article :=
  (apply_character_replacement en q).flatMap (fun v =>
    db.filter (fun a =>
      a.word_class == some "EXPR".toList &&
        (likeContains v a.lemma_ || optLike v a.all_lemmas)))

/-- `search_expressions_only(conn, query)`. -/
def search_expressions_only (db : List Article) (en : Bool) (q : List Char) :
    List Article :=
  sortStable lenLt (dedupKeyed Article.article_id (exprOnlyRaw db en q) [])

/-! ## Fuzzy search

`similarity(a, b)` in core.py lowercases both strings and calls
`SequenceMatcher(...).ratio()`; the ratio itself is Python standard-library
code returning a float, so the embedding is parametrised by the ratio
function and by its linearly ordered score type `Score` (the float values,
of which only order comparisons and the literal 0 are used). -/

variable {Score : Type} [LinearOrder Score] [Zero Score]

/-- `similarity(a, b) = SequenceMatcher(None, a.lower(), b.lower()).ratio()`
with the external ratio function abstracted. -/
def similarity (ratio : List Char → List Char → Score) (a b : List Char) :
    Score :=
  ratio (lower a) (lower b)

/-- The `max_similarity` loop of `search_fuzzy`: maximum similarity of the
variant against the `all_lemmas` elements, starting from 0 and updated on
strict improvement. -/
def fuzzyMax (ratio : List Char → List Char → Score) (v : List Char)
    (a : Article) : Score :=
  (pyAllLemmas a).foldl
    (fun acc lem =>
      if acc < similarity ratio v lem then similarity ratio v lem else acc) 0

/-- The body of the fuzzy loop for one `(variant, article)` pair: the
candidate together with its recorded similarity score, if any.  First the
primary lemma is compared; otherwise the maximum over `all_lemmas`. -/
def fuzzyCand (ratio : List Char → List Char → Score) (th : Score)
    (v : List Char) (a : Article) : Option (Article × Score) :=
  if th ≤ similarity ratio v a.lemma_ then some (a, similarity ratio v a.lemma_)
  else if th ≤ fuzzyMax ratio v a then some (a, fuzzyMax ratio v a) else none

/-- All scored raw hits of `search_fuzzy` across the query variants, before
de-duplication: the loop `for variant: for article: ...` flattened. -/
def fuzzyRaw (ratio : List Char → List Char → Score) (db : List Article)
    (en : Bool) (q : List Char) (th : Score) (ie : Bool) :
    List (Article × Score) :=
  (apply_character_replacement en q).flatMap (fun v =>
    (db.filter (exprOK ie)).filterMap (fuzzyCand ratio th v))

/-- Strict comparison of the fuzzy sort keys `(-score, len(lemma))`
(Python tuple `<`). -/
def fuzzyLt (p q : Article × Score) : Bool :=
  q.2 < p.2 || (p.2 == q.2 && p.1.lemma_.length < q.1.lemma_.length)

/-- The de-duplicated, sorted scored match list of `search_fuzzy`. -/
def fuzzySorted (ratio : List Char → List Char → Score) (db : List Article)
    (en : Bool) (q : List Char) (th : Score) (ie : Bool) :
    List (Article × Score) :=
  sortStable fuzzyLt
    (dedupKeyed (fun p => p.1.article_id) (fuzzyRaw ratio db en q th ie) [])

/-- `search_fuzzy(conn, query, threshold=0.6, include_expr=False)`: the
articles of the sorted scored matches. -/
def search_fuzzy (ratio : List Char → List Char → Score) (db : List Article)
    (en : Bool) (q : List Char) (th : Score) (ie : Bool := false) :
    List Article :=
  (fuzzySorted ratio db en q th ie).map Prod.fst

/-! ## Whole-dictionary example finder (`search_all_examples`) -/

/-- One row of the example query result:
`(e.quote, e.explanation, a.lemma, a.word_class)`. -/
structure ExampleHit where
  quote : List Char
  explanation : Option (List Char)
  lemma_ : List Char
  word_class : Option (List Char)
deriving DecidableEq, Repr

/-- Strict `ORDER BY a.lemma, e.id` comparison on joined rows. -/
def exJoinLt (p q : ExRow × Article) : Bool :=
  charListLt p.2.lemma_ q.2.lemma_ ||
    (p.2.lemma_ == q.2.lemma_ && p.1.id < q.1.id)

/-- The SQL result rows of `search_all_examples` for one variant:
`examples JOIN articles`, quotes non-`NULL`, non-empty and containing the
variant, ordered by `(a.lemma, e.id)`, projected and made `DISTINCT`
(first occurrence of each equal row kept). -/
def exampleRows (C : Corpus) (v : List Char) : List ExampleHit :=
  let joined := C.examples.flatMap (fun e =>
    (C.articles.filter (fun a => a.article_id == e.article_id)).map
      (fun a => (e, a)))
  let filtered := joined.filter (fun p =>
    match p.1.quote with
    | none => false
    | some qt => !qt.isEmpty && likeContains v qt)
  let projected := (sortStable exJoinLt filtered).map (fun p =>
    { quote := p.1.quote.getD [], explanation := p.1.explanation,
      lemma_ := p.2.lemma_, word_class := p.2.word_class : ExampleHit })
  dedupKeyed (fun r => r) projected []

/-- The acceptance test of `search_all_examples`.  The source builds the
pattern as `r'\\b' + re.escape(variant.lower()) + r'\\b'`: in a raw string
`r'\\b'` is the two characters backslash and `b`, which the regex engine
reads as an escaped literal backslash followed by a literal `b` — so the
"word boundary" branch matches exactly when the quote contains the literal
text `\b<variant>\b`.  The fallback tests membership of the lowered variant
in the whitespace-split tokens of the lowered quote. -/
def acceptQuote (v qt : List Char) : Bool :=
  let vl := lower v
  let ql := lower qt
  isSubList (('\\' :: 'b' :: []) ++ vl ++ ('\\' :: 'b' :: [])) ql ||
    (splitWs ql).contains vl

/-- The Python acceptance loop of `search_all_examples`: skip quotes already
seen, keep rows whose quote passes the acceptance test for the variant that
retrieved them, threading the seen-quote set across variants. -/
def acceptStep : List (List Char × ExampleHit) → List (List Char) →
    List ExampleHit
  | [], _ => []
  | (v, r) :: rest, seen =>
    if !r.quote.isEmpty && !seen.contains r.quote then
      if acceptQuote v r.quote then r :: acceptStep rest (r.quote :: seen)
      else acceptStep rest seen
    else acceptStep rest seen

/-- The accepted examples of `search_all_examples`, in retrieval order
(before the final sort). -/
def acceptedExamples (C : Corpus) (en : Bool) (q : List Char) :
    List ExampleHit :=
  acceptStep
    ((apply_character_replacement en q).flatMap (fun v =>
      (exampleRows C v).map (fun r => (v, r)))) []

/-- Strict comparison by owning lemma (`all_examples.sort(key=lambda x: x[2])`). -/
def exLemmaLt (r s : ExampleHit) : Bool := charListLt r.lemma_ s.lemma_

/-- `search_all_examples(conn, query)`. -/
def search_all_examples (C : Corpus) (en : Bool) (q : List Char) :
    List ExampleHit :=
  sortStable exLemmaLt (acceptedExamples C en q)

/-! ## CLI dispatch (`cli.py` `main`, lines 192–210) -/

/-- The search dispatch of `cli.py`: select the search function by the
`search_type` string; in the `else` branch (exact search) fall back to a
prefix search with `include_expr=True` when the exact search found
nothing. -/
def run_search (C : Corpus) (en : Bool)
    (ratio : List Char → List Char → Score) (threshold : Score)
    (search_type : String) (clean_query : List Char) : List Article :=
  if search_type = "expressions_only" then
    search_expressions_only C.articles en clean_query
  else if search_type = "fuzzy" then
    search_fuzzy ratio C.articles en clean_query threshold false
  else if search_type = "anywhere" then search_anywhere C en clean_query false
  else if search_type = "prefix" then
    search_prefix C.articles en clean_query false
  else if search_type = "anywhere_term" then
    search_anywhere_term C.articles en clean_query false
  else if search_type = "fulltext" then search_fulltext C en clean_query false
  else
    let results := search_exact C.articles en clean_query true
    if results.isEmpty && search_type = "exact" then
      search_prefix C.articles en clean_query true
    else results

/-! ## Generic lemmas: stable sort -/

theorem insertK_perm {α : Type} (lt : α → α → Bool) (x : α) (l : List α) :
    (insertK lt x l).Perm (x :: l) := by
  induction l with
  | nil => simp [insertK]
  | cons y ys ih =>
    by_cases h : lt y x
    · simp only [insertK, h, if_true]
      exact (ih.cons y).trans (List.Perm.swap x y ys)
    · simp [insertK, h]

theorem sortStable_perm {α : Type} (lt : α → α → Bool) (l : List α) :
    (sortStable lt l).Perm l := by
  induction l with
  | nil => simp [sortStable]
  | cons x xs ih => exact (insertK_perm lt x (sortStable lt xs)).trans (ih.cons x)

theorem mem_sortStable {α : Type} {lt : α → α → Bool} {l : List α} {a : α} :
    a ∈ sortStable lt l ↔ a ∈ l :=
  (sortStable_perm lt l).mem_iff

theorem pairwise_insertK {α : Type} {lt : α → α → Bool}
    (hasymm : ∀ a b, lt a b = true → lt b a = false)
    (htrans : ∀ a b c, lt b a = false → lt c b = false → lt c a = false)
    (x : α) {l : List α} (hl : l.Pairwise (fun a b => lt b a = false)) :
    (insertK lt x l).Pairwise (fun a b => lt b a = false) := by
  induction l with
  | nil => simp [insertK]
  | cons y ys ih =>
    rw [List.pairwise_cons] at hl
    cases h : lt y x with
    | true =>
      simp only [insertK, h, if_true, List.pairwise_cons]
      refine ⟨fun z hz => ?_, ih hl.2⟩
      rcases List.mem_cons.mp ((insertK_perm lt x ys).mem_iff.mp hz) with hz' | hz'
      · subst hz'
        exact hasymm y z h
      · exact hl.1 z hz'
    | false =>
      simp only [insertK, h, Bool.false_eq_true, if_false, List.pairwise_cons]
      refine ⟨fun z hz => ?_, hl.1, hl.2⟩
      rcases List.mem_cons.mp hz with hz' | hz'
      · subst hz'
        exact h
      · exact htrans x y z h (hl.1 z hz')

theorem pairwise_sortStable {α : Type} {lt : α → α → Bool}
    (hasymm : ∀ a b, lt a b = true → lt b a = false)
    (htrans : ∀ a b c, lt b a = false → lt c b = false → lt c a = false)
    (l : List α) :
    (sortStable lt l).Pairwise (fun a b => lt b a = false) := by
  induction l with
  | nil => simp [sortStable]
  | cons x xs ih => exact pairwise_insertK hasymm htrans x ih

theorem filter_insertK {α : Type} {lt : α → α → Bool} {p : α → Bool}
    (hkey : ∀ a b, p a = true → p b = true → lt a b = false)
    (x : α) (l : List α) :
    (insertK lt x l).filter p =
      if p x then x :: l.filter p else l.filter p := by
  induction l with
  | nil => cases h : p x <;> simp [insertK, List.filter, h]
  | cons y ys ih =>
    cases h : lt y x with
    | true =>
      have hpy : p x = true → p y = false := by
        intro hx
        cases hy : p y
        · rfl
        · exact absurd (hkey y x hy hx) (by simp [h])
      simp only [insertK, h, if_true, List.filter]
      cases hx : p x with
      | true =>
        rw [hpy hx, ih]
        simp [hx]
      | false => cases hy : p y <;> simp [ih, hx, hy, List.filter]
    | false =>
      simp only [insertK, h, Bool.false_eq_true, if_false, List.filter]
      cases hx : p x <;> simp [hx, List.filter]

theorem filter_sortStable {α : Type} {lt : α → α → Bool} {p : α → Bool}
    (hkey : ∀ a b, p a = true → p b = true → lt a b = false)
    (l : List α) :
    (sortStable lt l).filter p = l.filter p := by
  induction l with
  | nil => simp [sortStable]
  | cons x xs ih =>
    simp only [sortStable, filter_insertK hkey, ih, List.filter]
    by_cases hx : p x <;> simp [hx]

/-! ## Generic lemmas: order-preserving de-duplication -/

theorem mem_of_mem_dedupKeyed {α κ : Type} [DecidableEq κ] {key : α → κ}
    {l : List α} {seen : List κ} {a : α}
    (h : a ∈ dedupKeyed key l seen) : a ∈ l := by
  induction l generalizing seen with
  | nil => simp [dedupKeyed] at h
  | cons x xs ih =>
    by_cases hx : key x ∈ seen
    · simp only [dedupKeyed, if_pos hx] at h
      exact List.mem_cons_of_mem x (ih h)
    · simp only [dedupKeyed, if_neg hx, List.mem_cons] at h
      rcases h with h | h
      · exact h ▸ List.mem_cons_self x xs
      · exact List.mem_cons_of_mem x (ih h)

theorem mem_keys_dedupKeyed {α κ : Type} [DecidableEq κ] {key : α → κ}
    {l : List α} {seen : List κ} {k : κ} :
    k ∈ (dedupKeyed key l seen).map key ↔ k ∈ l.map key ∧ k ∉ seen := by
  induction l generalizing seen with
  | nil => simp [dedupKeyed]
  | cons x xs ih =>
    by_cases hx : key x ∈ seen
    · simp only [dedupKeyed, if_pos hx, ih, List.map_cons, List.mem_cons]
      constructor
      · exact fun ⟨h1, h2⟩ => ⟨Or.inr h1, h2⟩
      · rintro ⟨h1 | h1, h2⟩
        · exact absurd (h1 ▸ hx) h2
        · exact ⟨h1, h2⟩
    · simp only [dedupKeyed, if_neg hx, List.map_cons, List.mem_cons, ih,
        List.mem_cons, not_or]
      constructor
      · rintro (h | ⟨h1, h2, h3⟩)
        · exact ⟨Or.inl h, h ▸ hx⟩
        · exact ⟨Or.inr h1, h3⟩
      · rintro ⟨h1 | h1, h2⟩
        · exact Or.inl h1
        · by_cases hk : k = key x
          · exact Or.inl hk
          · exact Or.inr ⟨h1, hk, h2⟩

theorem nodup_keys_dedupKeyed {α κ : Type} [DecidableEq κ] (key : α → κ)
    (l : List α) (seen : List κ) :
    ((dedupKeyed key l seen).map key).Nodup := by
  induction l generalizing seen with
  | nil => simp [dedupKeyed]
  | cons x xs ih =>
    by_cases hx : key x ∈ seen
    · simpa only [dedupKeyed, if_pos hx] using ih seen
    · simp only [dedupKeyed, if_neg hx, List.map_cons, List.nodup_cons]
      refine ⟨fun hmem => ?_, ih (key x :: seen)⟩
      exact (mem_keys_dedupKeyed.mp hmem).2 (List.mem_cons_self _ _)

theorem first_seen_dedupKeyed {α κ : Type} [DecidableEq κ] {key : α → κ}
    {l : List α} {seen : List κ} {a : α}
    (h : a ∈ dedupKeyed key l seen) :
    key a ∉ seen ∧ (l.filter (fun b => key b == key a)).head? = some a := by
  induction l generalizing seen with
  | nil => simp [dedupKeyed] at h
  | cons x xs ih =>
    by_cases hx : key x ∈ seen
    · simp only [dedupKeyed, if_pos hx] at h
      obtain ⟨h1, h2⟩ := ih h
      have hne : (key x == key a) = false := by
        cases hkk : key x == key a
        · rfl
        · exact absurd (beq_iff_eq.mp hkk ▸ hx) h1
      refine ⟨h1, ?_⟩
      simp [List.filter, hne, h2]
    · simp only [dedupKeyed, if_neg hx, List.mem_cons] at h
      rcases h with h | h
      · subst h
        refine ⟨hx, ?_⟩
        simp [List.filter]
      · obtain ⟨h1, h2⟩ := ih h
        simp only [List.mem_cons, not_or] at h1
        have hne : (key x == key a) = false := by
          cases hkk : key x == key a
          · rfl
          · exact absurd (beq_iff_eq.mp hkk).symm h1.1
        refine ⟨h1.2, ?_⟩
        simp [List.filter, hne, h2]

theorem mem_dedupKeyed_of_uniq {α κ : Type} [DecidableEq κ] {key : α → κ}
    {l : List α} {seen : List κ} {a : α}
    (huniq : ∀ x ∈ l, ∀ y ∈ l, key x = key y → x = y) :
    a ∈ dedupKeyed key l seen ↔ a ∈ l ∧ key a ∉ seen := by
  constructor
  · intro h
    exact ⟨mem_of_mem_dedupKeyed h, (first_seen_dedupKeyed h).1⟩
  · rintro ⟨hmem, hseen⟩
    have hk : key a ∈ (dedupKeyed key l seen).map key :=
      mem_keys_dedupKeyed.mpr ⟨List.mem_map_of_mem key hmem, hseen⟩
    obtain ⟨b, hb, hkb⟩ := List.mem_map.mp hk
    have : b = a := huniq b (mem_of_mem_dedupKeyed hb) a hmem hkb
    exact this ▸ hb

/-! ## Comparator properties -/

theorem charListLt_iff_lex (a b : List Char) :
    charListLt a b = true ↔ List.Lex (· < ·) a b := by
  induction a generalizing b with
  | nil =>
    cases b with
    | nil =>
      simp only [charListLt, Bool.false_eq_true, false_iff]
      intro h
      cases h
    | cons y ys => simp [charListLt, List.Lex.nil]
  | cons x xs ih =>
    cases b with
    | nil =>
      simp only [charListLt, Bool.false_eq_true, false_iff]
      intro h
      cases h
    | cons y ys =>
      simp only [charListLt, Bool.or_eq_true, Bool.and_eq_true,
        decide_eq_true_iff, beq_iff_eq]
      constructor
      · rintro (h | ⟨rfl, h⟩)
        · exact List.Lex.rel h
        · exact List.Lex.cons ((ih ys).mp h)
      · intro h
        cases h with
        | rel h => exact Or.inl h
        | cons h => exact Or.inr ⟨rfl, (ih ys).mpr h⟩

theorem charListLt_lt (a b : List Char) : charListLt a b = true ↔ a < b :=
  charListLt_iff_lex a b

theorem charListLt_false (a b : List Char) : charListLt a b = false ↔ b ≤ a := by
  rw [← Bool.not_eq_true, charListLt_lt, not_lt]

theorem charListLt_irrefl (a : List Char) : charListLt a a = false :=
  (charListLt_false a a).mpr le_rfl

theorem exactLt_iff (a b : Article) :
    exactLt a b = true ↔
      homKey a < homKey b ∨
        (homKey a = homKey b ∧
          (wcPriority a < wcPriority b ∨
            (wcPriority a = wcPriority b ∧
              a.lemma_.length < b.lemma_.length))) := by
  simp [exactLt, Bool.or_eq_true, Bool.and_eq_true, decide_eq_true_iff,
    beq_iff_eq]

theorem exactLt_asymm (a b : Article) (h : exactLt a b = true) :
    exactLt b a = false := by
  by_contra hh
  rw [Bool.not_eq_false, exactLt_iff] at hh
  rw [exactLt_iff] at h
  omega

theorem exactLt_negtrans (a b c : Article) (h1 : exactLt b a = false)
    (h2 : exactLt c b = false) : exactLt c a = false := by
  by_contra hh
  rw [Bool.not_eq_false, exactLt_iff] at hh
  have h1' : ¬ _ := fun hp => by rw [(exactLt_iff b a).mpr hp] at h1; cases h1
  have h2' : ¬ _ := fun hp => by rw [(exactLt_iff c b).mpr hp] at h2; cases h2
  omega

theorem lenLt_asymm (a b : Article) (h : lenLt a b = true) :
    lenLt b a = false := by
  simp only [lenLt, decide_eq_true_iff] at h
  simp only [lenLt, decide_eq_false_iff_not, not_lt]
  omega

theorem lenLt_negtrans (a b c : Article) (h1 : lenLt b a = false)
    (h2 : lenLt c b = false) : lenLt c a = false := by
  simp only [lenLt, decide_eq_false_iff_not, not_lt] at h1 h2 ⊢
  omega

theorem fuzzyLt_iff (p q : Article × Score) :
    fuzzyLt p q = true ↔
      q.2 < p.2 ∨ (p.2 = q.2 ∧ p.1.lemma_.length < q.1.lemma_.length) := by
  simp [fuzzyLt, Bool.or_eq_true, Bool.and_eq_true, decide_eq_true_iff,
    beq_iff_eq]

theorem fuzzyLt_asymm (p q : Article × Score) (h : fuzzyLt p q = true) :
    fuzzyLt q p = false := by
  by_contra hh
  rw [Bool.not_eq_false, fuzzyLt_iff] at hh
  rw [fuzzyLt_iff] at h
  rcases h with h | ⟨h1, h2⟩ <;> rcases hh with hh | ⟨hh1, hh2⟩
  · exact absurd hh (lt_asymm h)
  · exact absurd (hh1 ▸ h) (lt_irrefl p.2)
  · rw [h1] at hh
    exact absurd hh (lt_irrefl q.2)
  · omega

theorem fuzzyLt_negtrans (p q r : Article × Score) (h1 : fuzzyLt q p = false)
    (h2 : fuzzyLt r q = false) : fuzzyLt r p = false := by
  have h1' : ¬ (p.2 < q.2 ∨
      (q.2 = p.2 ∧ q.1.lemma_.length < p.1.lemma_.length)) :=
    fun hp => by rw [(fuzzyLt_iff q p).mpr hp] at h1; cases h1
  have h2' : ¬ (q.2 < r.2 ∨
      (r.2 = q.2 ∧ r.1.lemma_.length < q.1.lemma_.length)) :=
    fun hp => by rw [(fuzzyLt_iff r q).mpr hp] at h2; cases h2
  by_contra hh
  rw [Bool.not_eq_false, fuzzyLt_iff] at hh
  push_neg at h1' h2'
  obtain ⟨ha1, hb1⟩ := h1'
  obtain ⟨ha2, hb2⟩ := h2'
  rcases hh with hh | ⟨hh1, hh2⟩
  · exact absurd (hh.trans_le (ha2.trans ha1)) (lt_irrefl p.2)
  · have hq : q.2 = p.2 := le_antisymm ha1 (hh1 ▸ ha2)
    have hr : r.2 = q.2 := hh1.trans hq.symm
    have hl1 := hb1 hq
    have hl2 := hb2 hr
    omega

theorem exLemmaLt_asymm (r s : ExampleHit) (h : exLemmaLt r s = true) :
    exLemmaLt s r = false := by
  simp only [exLemmaLt, charListLt_lt] at h
  simp only [exLemmaLt, charListLt_false]
  exact le_of_lt h

theorem exLemmaLt_negtrans (r s t : ExampleHit) (h1 : exLemmaLt s r = false)
    (h2 : exLemmaLt t s = false) : exLemmaLt t r = false := by
  simp only [exLemmaLt, charListLt_false] at h1 h2 ⊢
  exact h1.trans h2

/-! ## Substring and split lemmas -/

theorem isSubList_iff {p s : List Char} : isSubList p s = true ↔ p <:+: s := by
  induction s with
  | nil =>
    simp only [isSubList, List.isEmpty_iff]
    exact ⟨fun h => h ▸ List.infix_rfl, List.eq_nil_of_infix_nil⟩
  | cons c rest ih =>
    simp only [isSubList, Bool.or_eq_true, List.isPrefixOf_iff_prefix, ih,
      List.infix_cons_iff]

theorem splitBar_structure (s : List Char) :
    ∃ g gs, splitBar s = g :: gs ∧ g <+: s ∧ ∀ x ∈ gs, x <:+: s := by
  induction s using splitBar.induct with
  | case1 =>
    exact ⟨[], [], by simp [splitBar], List.nil_prefix, by simp⟩
  | case2 c rest hpre ih =>
    obtain ⟨g, gs, hsp, hg, hgs⟩ := ih
    refine ⟨[], splitBar (rest.drop 2), by rw [splitBar, if_pos hpre],
      List.nil_prefix, fun x hx => ?_⟩
    have hsufx : rest.drop 2 <:+: c :: rest :=
      ((rest.drop_suffix 2).trans (List.suffix_cons c rest)).isInfix
    rw [hsp] at hx
    rcases List.mem_cons.mp hx with h' | h'
    · exact h' ▸ (hg.isInfix.trans hsufx)
    · exact (hgs x h').trans hsufx
  | case3 c rest hpre hnil ih =>
    obtain ⟨g, gs, hsp, _, _⟩ := ih
    exact absurd (hnil ▸ hsp) (by simp)
  | case4 c rest hpre g gs hgs ih =>
    obtain ⟨g', gs', hsp, hg, hgs'⟩ := ih
    rw [hgs] at hsp
    injection hsp with h1 h2
    subst h1
    subst h2
    refine ⟨c :: g, gs, by rw [splitBar, if_neg hpre, hgs], ?_, fun x hx => ?_⟩
    · obtain ⟨t, ht⟩ := hg
      exact ⟨t, by simp [ht]⟩
    · exact (hgs' x hx).trans (List.suffix_cons c rest).isInfix

theorem mem_splitBar_infix {x s : List Char} (h : x ∈ splitBar s) :
    x <:+: s := by
  obtain ⟨g, gs, hsp, hg, hgs⟩ := splitBar_structure s
  rw [hsp] at h
  rcases List.mem_cons.mp h with h' | h'
  · exact h' ▸ hg.isInfix
  · exact hgs x h'

theorem mem_splitField_infix {x : List Char} {f : Option (List Char)}
    {s : List Char} (hf : f = some s) (h : x ∈ splitField f) : x <:+: s := by
  subst hf
  simp only [splitField] at h
  by_cases he : s.isEmpty
  · simp [he] at h
  · rw [if_neg he] at h
    exact mem_splitBar_infix h

theorem optLike_of_contains_split {v : List Char} {f : Option (List Char)}
    (h : ((splitField f).map lower).contains (lower v) = true) :
    optLike v f = true := by
  match hf : f with
  | none => simp [splitField, hf] at h
  | some s =>
    rw [List.elem_iff] at h
    obtain ⟨e, he, hev⟩ := List.mem_map.mp h
    have hinf : e <:+: s := mem_splitField_infix rfl he
    have hlow : lower v <:+: lower s := by
      rw [← hev]
      exact List.IsInfix.map lowerC hinf
    simp only [optLike, likeContains]
    exact isSubList_iff.mpr hlow

/-! ## Membership characterisations -/

theorem mem_exactHits {db : List Article} {v : List Char} {ie : Bool}
    {a : Article} :
    a ∈ exactHits db v ie ↔
      a ∈ db ∧
        ((eqNocase a.lemma_ v = true ∧ exprOK ie a = true) ∨
          ((optLike v a.all_lemmas || optLike v a.inflections) = true ∧
            exprOK ie a = true ∧ wholeElemCheck v a = true)) := by
  simp only [exactHits, List.mem_append, List.mem_filter, Bool.and_eq_true]
  constructor
  · rintro (⟨hdb, h1, h2⟩ | ⟨⟨hdb, h1, h2⟩, h3⟩)
    · exact ⟨hdb, Or.inl ⟨h1, h2⟩⟩
    · exact ⟨hdb, Or.inr ⟨h1, h2, h3⟩⟩
  · rintro ⟨hdb, ⟨h1, h2⟩ | ⟨h1, h2, h3⟩⟩
    · exact Or.inl ⟨hdb, h1, h2⟩
    · exact Or.inr ⟨⟨hdb, h1, h2⟩, h3⟩

theorem exactRaw_subset {db : List Article} {en : Bool} {q : List Char}
    {ie : Bool} {a : Article} (h : a ∈ exactRaw db en q ie) : a ∈ db := by
  simp only [exactRaw, List.mem_flatMap] at h
  obtain ⟨v, _, hv⟩ := h
  exact (mem_exactHits.mp hv).1

/-- Membership in `search_exact`, under the corpus invariant that article
ids are unique: an entry is returned exactly when some query variant equals
its primary lemma up to case, or equals a whole element of its `all_lemmas`
or `inflections` lists up to case. -/
theorem search_exact_mem_iff {db : List Article} {en : Bool} {q : List Char}
    {a : Article} (h : (db.map Article.article_id).Nodup) :
    a ∈ search_exact db en q true ↔
      a ∈ db ∧ ∃ v ∈ apply_character_replacement en q,
        eqNocase a.lemma_ v = true ∨ wholeElemCheck v a = true := by
  have huniq : ∀ x ∈ exactRaw db en q true, ∀ y ∈ exactRaw db en q true,
      x.article_id = y.article_id → x = y := fun _ hx _ hy =>
    List.inj_on_of_nodup_map h (exactRaw_subset hx) (exactRaw_subset hy)
  rw [search_exact, mem_sortStable, mem_dedupKeyed_of_uniq huniq]
  simp only [List.not_mem_nil, not_false_iff, and_true]
  constructor
  · intro hx
    refine ⟨exactRaw_subset hx, ?_⟩
    simp only [exactRaw, List.mem_flatMap] at hx
    obtain ⟨v, hv, hx⟩ := hx
    rcases (mem_exactHits.mp hx).2 with ⟨h1, _⟩ | ⟨_, _, h3⟩
    · exact ⟨v, hv, Or.inl h1⟩
    · exact ⟨v, hv, Or.inr h3⟩
  · rintro ⟨hdb, v, hv, hcond⟩
    simp only [exactRaw, List.mem_flatMap]
    refine ⟨v, hv, mem_exactHits.mpr ⟨hdb, ?_⟩⟩
    rcases hcond with h1 | h3
    · exact Or.inl ⟨h1, by simp [exprOK]⟩
    · refine Or.inr ⟨?_, by simp [exprOK], h3⟩
      rcases Bool.or_eq_true .. |>.mp h3 with hc | hc
      · exact Bool.or_eq_true .. |>.mpr (Or.inl (optLike_of_contains_split hc))
      · exact Bool.or_eq_true .. |>.mpr (Or.inr (optLike_of_contains_split hc))

theorem fuzzyCand_eq_some {ratio : List Char → List Char → Score}
    {th : Score} {v : List Char} {b : Article} {p : Article × Score}
    (h : fuzzyCand ratio th v b = some p) :
    p.1 = b ∧ (th ≤ similarity ratio v b.lemma_ ∨ th ≤ fuzzyMax ratio v b) := by
  by_cases h1 : th ≤ similarity ratio v b.lemma_
  · rw [fuzzyCand, if_pos h1] at h
    cases h
    exact ⟨rfl, Or.inl h1⟩
  · rw [fuzzyCand, if_neg h1] at h
    by_cases h2 : th ≤ fuzzyMax ratio v b
    · rw [if_pos h2] at h
      cases h
      exact ⟨rfl, Or.inr h2⟩
    · rw [if_neg h2] at h
      cases h

theorem fuzzyCand_isSome {ratio : List Char → List Char → Score} {th : Score}
    {v : List Char} {b : Article}
    (h : th ≤ similarity ratio v b.lemma_ ∨ th ≤ fuzzyMax ratio v b) :
    ∃ s, fuzzyCand ratio th v b = some (b, s) := by
  by_cases h1 : th ≤ similarity ratio v b.lemma_
  · exact ⟨similarity ratio v b.lemma_, by rw [fuzzyCand, if_pos h1]⟩
  · have h2 : th ≤ fuzzyMax ratio v b := h.resolve_left h1
    exact ⟨fuzzyMax ratio v b, by rw [fuzzyCand, if_neg h1, if_pos h2]⟩

theorem mem_fuzzyRaw {ratio : List Char → List Char → Score}
    {db : List Article} {en : Bool} {q : List Char} {th : Score} {ie : Bool}
    {p : Article × Score} :
    p ∈ fuzzyRaw ratio db en q th ie ↔
      ∃ v ∈ apply_character_replacement en q,
        ∃ b, (b ∈ db ∧ exprOK ie b = true) ∧ fuzzyCand ratio th v b = some p := by
  simp only [fuzzyRaw, List.mem_flatMap, List.mem_filterMap, List.mem_filter]

/-- Membership in `search_fuzzy`, under the corpus invariant that article
ids are unique: an entry not excluded by the expression filter is included
exactly when, for some query variant, the similarity against the primary
lemma reaches the threshold, or the maximum similarity over the `all_lemmas`
elements does. -/
theorem search_fuzzy_mem_iff {ratio : List Char → List Char → Score}
    {db : List Article} {en : Bool} {q : List Char} {th : Score} {ie : Bool}
    {a : Article} (h : (db.map Article.article_id).Nodup) :
    a ∈ search_fuzzy ratio db en q th ie ↔
      a ∈ db ∧ exprOK ie a = true ∧
        ∃ v ∈ apply_character_replacement en q,
          (th ≤ similarity ratio v a.lemma_ ∨ th ≤ fuzzyMax ratio v a) := by
  have hmap : a ∈ search_fuzzy ratio db en q th ie ↔
      a ∈ (dedupKeyed (fun p => p.1.article_id)
        (fuzzyRaw ratio db en q th ie) []).map Prod.fst := by
    rw [search_fuzzy, fuzzySorted]
    exact ((sortStable_perm fuzzyLt _).map Prod.fst).mem_iff
  rw [hmap]
  constructor
  · intro hx
    obtain ⟨p, hp, hpa⟩ := List.mem_map.mp hx
    obtain ⟨v, hv, b, ⟨hdb, hie⟩, hcand⟩ :=
      mem_fuzzyRaw.mp (mem_of_mem_dedupKeyed hp)
    obtain ⟨hfst, hcond⟩ := fuzzyCand_eq_some hcand
    have hab : a = b := hpa ▸ hfst
    subst hab
    exact ⟨hdb, hie, v, hv, hcond⟩
  · rintro ⟨hdb, hie, v, hv, hcond⟩
    obtain ⟨s, hs⟩ := fuzzyCand_isSome hcond
    have hraw : (a, s) ∈ fuzzyRaw ratio db en q th ie :=
      mem_fuzzyRaw.mpr ⟨v, hv, a, ⟨hdb, hie⟩, hs⟩
    have hkey : a.article_id ∈
        ((dedupKeyed (fun p => p.1.article_id)
          (fuzzyRaw ratio db en q th ie) []).map (fun p => p.1.article_id)) := by
      refine mem_keys_dedupKeyed.mpr ⟨?_, List.not_mem_nil _⟩
      exact List.mem_map.mpr ⟨(a, s), hraw, rfl⟩
    obtain ⟨p', hp', hpk⟩ := List.mem_map.mp hkey
    obtain ⟨v', hv', b', ⟨hdb', _⟩, hcand'⟩ :=
      mem_fuzzyRaw.mp (mem_of_mem_dedupKeyed hp')
    have hfst' := (fuzzyCand_eq_some hcand').1
    have : p'.1 = a :=
      List.inj_on_of_nodup_map h (hfst' ▸ hdb') hdb (hfst' ▸ hpk)
    exact List.mem_map.mpr ⟨p', hp', this⟩

/-! ## Pipeline helpers -/

theorem nodup_pipeline {α κ : Type} [DecidableEq κ] (key : α → κ)
    (lt : α → α → Bool) (raw : List α) :
    ((sortStable lt (dedupKeyed key raw [])).map key).Nodup :=
  ((sortStable_perm lt (dedupKeyed key raw [])).map key).nodup_iff.mpr
    (nodup_keys_dedupKeyed key raw [])

theorem first_seen_pipeline {α κ : Type} [DecidableEq κ] {key : α → κ}
    {lt : α → α → Bool} {raw : List α} {a : α}
    (h : a ∈ sortStable lt (dedupKeyed key raw [])) :
    (raw.filter (fun b => key b == key a)).head? = some a :=
  (first_seen_dedupKeyed (mem_sortStable.mp h)).2

/-! ## Concrete fixtures used by the claim instances -/

/-- A concrete article row; unused columns default to `NULL`. -/
def mkArt (i : Nat) (lm : List Char) (al : Option (List Char))
    (wc : Option (List Char)) (infl : Option (List Char))
    (hom : Option Int) : Article :=
  { article_id := i, lemma_ := lm, all_lemmas := al, word_class := wc,
    gender := none, inflections := infl, inflection_table := none,
    etymology := none, homonym_number := hom }

/-- Three NOUN entries sharing the lemma `hus`, with homonym numbers
`NULL`, 2, 1 in insertion order. -/
def dbHom : List Article :=
  [mkArt 1 "hus".toList none (some "NOUN".toList) none none,
   mkArt 2 "hus".toList none (some "NOUN".toList) none (some 2),
   mkArt 3 "hus".toList none (some "NOUN".toList) none (some 1)]

/-- One EXPR entry and one NOUN entry, both matching `hus` queries. -/
def dbExpr : List Article :=
  [mkArt 1 "på huset".toList none (some "EXPR".toList) none none,
   mkArt 2 "hus".toList none (some "NOUN".toList) none none]

/-- A concrete similarity ratio giving 0.9 against the lemma `abcdef` and
0.61 against the lemma `ab`; scores are represented scaled by 100 on the
linearly ordered score type `Nat` (0.9 as 90, 0.61 as 61). -/
def ratioC : List Char → List Char → Nat := fun _ b =>
  if b = "abcdef".toList then 90
  else if b = "ab".toList then 61 else 0

/-- Two entries for the fuzzy ranking instance: the entry with the shorter
lemma `ab` (similarity 0.61) precedes the higher-scoring `abcdef`
(similarity 0.9) in table order. -/
def dbFz : List Article :=
  [mkArt 1 "ab".toList none (some "NOUN".toList) none none,
   mkArt 2 "abcdef".toList none (some "NOUN".toList) none none]

/-- A corpus with a single example quote `Han gikk til huset.` owned by the
entry `hus`. -/
def exCorpus : Corpus :=
  { articles := [mkArt 1 "hus".toList none (some "NOUN".toList) none none],
    definitions := [],
    examples := [ExRow.mk 1 1 (some "Han gikk til huset.".toList) none] }

/-! ## Claim theorems -/

/-- C2: for every non-empty query string, `parse_search_query` applies its
rules in order with first match winning: a leading `%` gives fulltext with
the `%` stripped; otherwise a trailing `@` without a leading `@` gives
prefix with the trailing `@` stripped; otherwise a leading `@` gives
anywhere-term with the leading `@` stripped and a trailing `@` also
stripped if present; otherwise exact with the query unchanged.  As a Lean
function it is pure and deterministic. -/
theorem claim_C2 (q : List Char) (hq : q ≠ []) :
    (startsC '%' q = true →
      parse_search_query q = ("fulltext", q.drop 1, q)) ∧
    (startsC '%' q = false → endsC '@' q = true → startsC '@' q = false →
      parse_search_query q = ("prefix", q.dropLast, q)) ∧
    (startsC '%' q = false → startsC '@' q = true →
      parse_search_query q = ("anywhere_term",
        if endsC '@' (q.drop 1) then (q.drop 1).dropLast else q.drop 1, q)) ∧
    (startsC '%' q = false → endsC '@' q = false → startsC '@' q = false →
      parse_search_query q = ("exact", q, q)) := by
  refine ⟨fun h1 => ?_, fun h1 h2 h3 => ?_, fun h1 h2 => ?_,
    fun h1 h2 h3 => ?_⟩
  · simp [parse_search_query, h1]
  · simp [parse_search_query, h1, h2, h3]
  · simp [parse_search_query, h1, h2]
  · simp [parse_search_query, h1, h2, h3]

/-- Witness for C2: the classifier evaluated at the concrete queries of the
spec's examples. -/
theorem claim_C2_witness :
    parse_search_query "%foo".toList = ("fulltext", "foo".toList, "%foo".toList) ∧
    parse_search_query "foo@".toList = ("prefix", "foo".toList, "foo@".toList) ∧
    parse_search_query "@foo".toList =
      ("anywhere_term", "foo".toList, "@foo".toList) ∧
    parse_search_query "@foo@".toList =
      ("anywhere_term", "foo".toList, "@foo@".toList) ∧
    parse_search_query "foo".toList = ("exact", "foo".toList, "foo".toList) := by
  refine ⟨?_, ?_, ?_, ?_, ?_⟩
  · exact (claim_C2 "%foo".toList (by decide)).1 (by decide)
  · exact (claim_C2 "foo@".toList (by decide)).2.1 (by decide) (by decide)
      (by decide)
  · simpa using (claim_C2 "@foo".toList (by decide)).2.2.1 (by decide)
      (by decide)
  · simpa using (claim_C2 "@foo@".toList (by decide)).2.2.1 (by decide)
      (by decide)
  · exact (claim_C2 "foo".toList (by decide)).2.2.2 (by decide) (by decide)
      (by decide)

/-- C3: the result list of `search_exact` is always sorted ascending by the
key triple (homonym number with `NULL` as 1; word-class priority NOUN=0,
VERB=1, ADJ=2, ADV=3, else 4; lemma length), and on the concrete corpus
`dbHom` (shared lemma `hus`, class NOUN, homonym numbers `NULL`, 2, 1 in
insertion order) the returned order is ids `[1, 3, 2]`: the homonym-`NULL`
and homonym-1 entries first, tied and in insertion order, the homonym-2
entry last. -/
theorem claim_C3 :
    (∀ (db : List Article) (en : Bool) (q : List Char) (ie : Bool),
      (search_exact db en q ie).Pairwise (fun a b => exactLt b a = false)) ∧
    (search_exact dbHom false "hus".toList).map Article.article_id =
      [1, 3, 2] := by
  constructor
  · intro db en q ie
    exact pairwise_sortStable exactLt_asymm exactLt_negtrans _
  · decide

/-- C5: every search mode returns each `article_id` at most once, and the
record kept for an id is the first raw hit with that id in encounter order
(first-seen-wins), for all inputs. -/
theorem claim_C5 :
    (∀ (db : List Article) (en : Bool) (q : List Char) (ie : Bool),
      ((search_exact db en q ie).map Article.article_id).Nodup ∧
      ∀ a ∈ search_exact db en q ie,
        ((exactRaw db en q ie).filter
          (fun b => b.article_id == a.article_id)).head? = some a) ∧
    (∀ (db : List Article) (en : Bool) (q : List Char) (ie : Bool),
      (( search_prefix db en q ie).map Article.article_id).Nodup ∧
      ∀ a ∈ search_prefix db en q ie,
        ((prefixRaw db en q ie).filter
          (fun b => b.article_id == a.article_id)).head? = some a) ∧
    (∀ (db : List Article) (en : Bool) (q : List Char) (ie : Bool),
      ((search_anywhere_term db en q ie).map Article.article_id).Nodup ∧
      ∀ a ∈ search_anywhere_term db en q ie,
        ((anywhereTermRaw db en q ie).filter
          (fun b => b.article_id == a.article_id)).head? = some a) ∧
    (∀ (C : Corpus) (en : Bool) (q : List Char) (ie : Bool),
      ((search_fulltext C en q ie).map Article.article_id).Nodup ∧
      ∀ a ∈ search_fulltext C en q ie,
        ((fulltextRaw C en q ie).filter
          (fun b => b.article_id == a.article_id)).head? = some a) ∧
    (∀ (C : Corpus) (en : Bool) (q : List Char) (ie : Bool),
      ((search_anywhere C en q ie).map Article.article_id).Nodup ∧
      ∀ a ∈ search_anywhere C en q ie,
        ((anywhereRaw C en q ie).filter
          (fun b => b.article_id == a.article_id)).head? = some a) ∧
    (∀ (db : List Article) (en : Bool) (q : List Char),
      ((search_expressions_only db en q).map Article.article_id).Nodup ∧
      ∀ a ∈ search_expressions_only db en q,
        ((exprOnlyRaw db en q).filter
          (fun b => b.article_id == a.article_id)).head? = some a) ∧
    (∀ (Sc : Type) (_ : LinearOrder Sc) (_ : Zero Sc)
        (ratio : List Char → List Char → Sc) (db : List Article) (en : Bool)
        (q : List Char) (th : Sc) (ie : Bool),
      ((search_fuzzy ratio db en q th ie).map Article.article_id).Nodup ∧
      ∀ a ∈ search_fuzzy ratio db en q th ie,
        (((fuzzyRaw ratio db en q th ie).map Prod.fst).filter
          (fun b => b.article_id == a.article_id)).head? = some a) := by
  refine ⟨fun db en q ie => ⟨?_, fun a ha => first_seen_pipeline ha⟩,
    fun db en q ie => ⟨?_, fun a ha => first_seen_pipeline ha⟩,
    fun db en q ie => ⟨?_, fun a ha => first_seen_pipeline ha⟩,
    fun C en q ie => ⟨?_, fun a ha => first_seen_pipeline ha⟩,
    fun C en q ie => ⟨?_, fun a ha => first_seen_pipeline ha⟩,
    fun db en q => ⟨?_, fun a ha => first_seen_pipeline ha⟩,
    fun Sc lo zo ratio db en q th ie => ⟨?_, fun a ha => ?_⟩⟩
  · exact nodup_pipeline Article.article_id exactLt (exactRaw db en q ie)
  · exact nodup_pipeline Article.article_id lenLt (prefixRaw db en q ie)
  · exact nodup_pipeline Article.article_id lenLt (anywhereTermRaw db en q ie)
  · exact nodup_pipeline Article.article_id lenLt (fulltextRaw C en q ie)
  · exact nodup_pipeline Article.article_id lenLt (anywhereRaw C en q ie)
  · exact nodup_pipeline Article.article_id lenLt (exprOnlyRaw db en q)
  · have h := nodup_pipeline (fun p : Article × Sc => p.1.article_id) fuzzyLt
      (fuzzyRaw ratio db en q th ie)
    simpa [search_fuzzy, fuzzySorted, List.map_map, Function.comp] using h
  · obtain ⟨p, hp, hpa⟩ := List.mem_map.mp ha
    have hfs := @first_seen_pipeline (Article × Sc) Nat _
      (fun p => p.1.article_id) fuzzyLt (fuzzyRaw ratio db en q th ie) p hp
    subst hpa
    rw [List.filter_map]
    have : ((fun b : Article => b.article_id == p.1.article_id) ∘ Prod.fst) =
        (fun b : Article × Sc => b.1.article_id == p.1.article_id) := rfl
    rw [this, List.head?_map, hfs]
    rfl

/-- Witness for C5: the first-seen record for id 1 in a concrete exact
search over `dbHom`. -/
theorem claim_C5_witness :
    ((exactRaw dbHom false "hus".toList true).filter
      (fun b => b.article_id ==
        (mkArt 1 "hus".toList none (some "NOUN".toList) none none).article_id)).head? =
      some (mkArt 1 "hus".toList none (some "NOUN".toList) none none) :=
  (claim_C5.1 dbHom false "hus".toList true).2
    (mkArt 1 "hus".toList none (some "NOUN".toList) none none) (by decide)

/-- C6: under unique article ids, `search_exact` (with its default
`include_expr=True`) returns an entry exactly when some query variant
equals the primary lemma case-insensitively, or equals a whole element of
the `all_lemmas` or `inflections` lists case-insensitively; a variant that
occurs only as a proper substring of those fields does not match. -/
theorem claim_C6 (db : List Article) (en : Bool) (q : List Char)
    (a : Article) (h : (db.map Article.article_id).Nodup) :
    a ∈ search_exact db en q ↔
      a ∈ db ∧ ∃ v ∈ apply_character_replacement en q,
        eqNocase a.lemma_ v = true ∨ wholeElemCheck v a = true :=
  search_exact_mem_iff h

/-- Witness for C6: over `dbHom` the query `hus` returns the id-1 entry
(lemma equality), and the substring query `hu` matches nothing. -/
theorem claim_C6_witness :
    (mkArt 1 "hus".toList none (some "NOUN".toList) none none ∈
        search_exact dbHom false "hus".toList ↔
      mkArt 1 "hus".toList none (some "NOUN".toList) none none ∈ dbHom ∧
        ∃ v ∈ apply_character_replacement false "hus".toList,
          eqNocase "hus".toList v = true ∨
            wholeElemCheck v
              (mkArt 1 "hus".toList none (some "NOUN".toList) none none) =
              true) ∧
    search_exact dbHom false "hu".toList = [] := by
  constructor
  · exact claim_C6 dbHom false "hus".toList
      (mkArt 1 "hus".toList none (some "NOUN".toList) none none) (by decide)
  · decide

/-- An entry passing the `include_expr=False` SQL filter is not an EXPR
entry. -/
theorem exprOK_false_ne {a : Article} (h : exprOK false a = true) :
    a.word_class ≠ some "EXPR".toList := by
  intro hwc
  rw [exprOK, hwc] at h
  simp at h

/-- C7: with their default `include_expr` arguments, the prefix,
anywhere-term, fulltext, anywhere and fuzzy searches never return an entry
whose word class is EXPR; `search_expressions_only` returns only EXPR
entries; and the exact and expressions-only searches do include EXPR
entries, as shown on the concrete corpus `dbExpr`. -/
theorem claim_C7 :
    (∀ (db : List Article) (en : Bool) (q : List Char),
      ∀ a ∈ search_prefix db en q, a.word_class ≠ some "EXPR".toList) ∧
    (∀ (db : List Article) (en : Bool) (q : List Char),
      ∀ a ∈ search_anywhere_term db en q, a.word_class ≠ some "EXPR".toList) ∧
    (∀ (C : Corpus) (en : Bool) (q : List Char),
      ∀ a ∈ search_fulltext C en q, a.word_class ≠ some "EXPR".toList) ∧
    (∀ (C : Corpus) (en : Bool) (q : List Char),
      ∀ a ∈ search_anywhere C en q, a.word_class ≠ some "EXPR".toList) ∧
    (∀ (Sc : Type) (_ : LinearOrder Sc) (_ : Zero Sc)
        (ratio : List Char → List Char → Sc) (db : List Article) (en : Bool)
        (q : List Char) (th : Sc),
      ∀ a ∈ search_fuzzy ratio db en q th,
        a.word_class ≠ some "EXPR".toList) ∧
    (∀ (db : List Article) (en : Bool) (q : List Char),
      ∀ a ∈ search_expressions_only db en q,
        a.word_class = some "EXPR".toList) ∧
    mkArt 1 "på huset".toList none (some "EXPR".toList) none none ∈
      search_exact dbExpr false "på huset".toList ∧
    mkArt 1 "på huset".toList none (some "EXPR".toList) none none ∈
      search_expressions_only dbExpr false "hus".toList := by
  refine ⟨?_, ?_, ?_, ?_, ?_, ?_, by decide, by decide⟩
  · intro db en q a ha
    have hraw := mem_of_mem_dedupKeyed (mem_sortStable.mp ha)
    simp only [prefixRaw, List.mem_flatMap, prefixHits, List.mem_filter,
      Bool.and_eq_true] at hraw
    obtain ⟨v, _, ⟨_, _, hok⟩, _⟩ := hraw
    exact exprOK_false_ne hok
  · intro db en q a ha
    have hraw := mem_of_mem_dedupKeyed (mem_sortStable.mp ha)
    simp only [anywhereTermRaw, List.mem_flatMap, List.mem_filter,
      Bool.and_eq_true] at hraw
    obtain ⟨v, _, _, _, hok⟩ := hraw
    exact exprOK_false_ne hok
  · intro C en q a ha
    have hraw := mem_of_mem_dedupKeyed (mem_sortStable.mp ha)
    simp only [fulltextRaw, List.mem_flatMap, List.mem_filter,
      Bool.and_eq_true] at hraw
    obtain ⟨v, _, _, _, hok⟩ := hraw
    exact exprOK_false_ne hok
  · intro C en q a ha
    have hraw := mem_of_mem_dedupKeyed (mem_sortStable.mp ha)
    simp only [anywhereRaw, List.mem_flatMap, List.mem_filter,
      Bool.and_eq_true] at hraw
    obtain ⟨v, _, _, _, hok⟩ := hraw
    exact exprOK_false_ne hok
  · intro Sc lo zo ratio db en q th a ha
    obtain ⟨p, hp, hpa⟩ := List.mem_map.mp ha
    obtain ⟨v, _, b, ⟨_, hok⟩, hcand⟩ :=
      mem_fuzzyRaw.mp (mem_of_mem_dedupKeyed (mem_sortStable.mp hp))
    have hfst := (fuzzyCand_eq_some hcand).1
    rw [← hpa, hfst]
    exact exprOK_false_ne hok
  · intro db en q a ha
    have hraw := mem_of_mem_dedupKeyed (mem_sortStable.mp ha)
    simp only [exprOnlyRaw, List.mem_flatMap, List.mem_filter,
      Bool.and_eq_true] at hraw
    obtain ⟨v, _, _, hwc, _⟩ := hraw
    exact beq_iff_eq.mp hwc

/-- Witness for C7: on the corpus `dbExpr`, the entry found by a prefix
search is not an EXPR entry, and the entry found by the expressions-only
search is one. -/
theorem claim_C7_witness :
    (mkArt 2 "hus".toList none (some "NOUN".toList) none none).word_class ≠
      some "EXPR".toList ∧
    (mkArt 1 "på huset".toList none (some "EXPR".toList) none none).word_class =
      some "EXPR".toList := by
  constructor
  · exact claim_C7.1 dbExpr false "hu".toList
      (mkArt 2 "hus".toList none (some "NOUN".toList) none none) (by decide)
  · exact claim_C7.2.2.2.2.2.1 dbExpr false "hus".toList
      (mkArt 1 "på huset".toList none (some "EXPR".toList) none none)
      (by decide)

theorem mem_dedupList {x : List Char} {l : List (List Char)} :
    x ∈ dedupList l ↔ x ∈ l := by
  have h := @mem_keys_dedupKeyed (List Char) (List Char) _
    (fun s => s) l [] x
  simpa [dedupList, List.map_id'] using h

theorem nodup_dedupList (l : List (List Char)) : (dedupList l).Nodup := by
  have h := nodup_keys_dedupKeyed (fun s : List Char => s) l []
  simpa [dedupList, List.map_id'] using h

/-- C9: the variant expansion starts with the original term; with
replacement disabled it is just the original; every variant is the original
or one of the three single-digraph substitutions `aa`→`å`, `oe`→`ø`,
`ae`→`æ` applied on its own (no combinations); with replacement enabled all
three substituted forms occur; and the sequence is duplicate-free
(order-preserving, case-sensitive de-duplication). -/
theorem claim_C9 (en : Bool) (t : List Char) :
    (apply_character_replacement en t).head? = some t ∧
    (en = false → apply_character_replacement en t = [t]) ∧
    (∀ x ∈ apply_character_replacement en t,
      x = t ∨ x = replace2 'a' 'a' ['å'] t ∨ x = replace2 'o' 'e' ['ø'] t ∨
        x = replace2 'a' 'e' ['æ'] t) ∧
    (en = true →
      replace2 'a' 'a' ['å'] t ∈ apply_character_replacement en t ∧
      replace2 'o' 'e' ['ø'] t ∈ apply_character_replacement en t ∧
      replace2 'a' 'e' ['æ'] t ∈ apply_character_replacement en t) ∧
    (apply_character_replacement en t).Nodup := by
  refine ⟨?_, fun hf => ?_, fun x hx => ?_, fun ht => ?_, ?_⟩
  · cases en <;> simp [apply_character_replacement, dedupList, dedupKeyed]
  · subst hf
    simp [apply_character_replacement, dedupList, dedupKeyed]
  · have hx' := mem_dedupList.mp hx
    cases en <;> simp_all [apply_character_replacement]
  · subst ht
    refine ⟨mem_dedupList.mpr ?_, mem_dedupList.mpr ?_, mem_dedupList.mpr ?_⟩
      <;> simp [apply_character_replacement]
  · exact nodup_dedupList _

/-- Witness for C9: expanding `gaa` with replacement enabled yields the
original followed by the `å`-substituted form. -/
theorem claim_C9_witness :
    apply_character_replacement true "gaa".toList =
      ["gaa".toList, "gå".toList] ∧
    "gå".toList ∈ apply_character_replacement true "gaa".toList := by
  have he : replace2 'a' 'a' ['å'] ['g', 'a', 'a'] = ['g', 'å'] := by
    simp [replace2]
  have ho : replace2 'o' 'e' ['ø'] ['g', 'a', 'a'] = ['g', 'a', 'a'] := by
    simp [replace2]
  have ha : replace2 'a' 'e' ['æ'] ['g', 'a', 'a'] = ['g', 'a', 'a'] := by
    simp [replace2]
  refine ⟨?_, ?_⟩
  · simp [apply_character_replacement, dedupList, dedupKeyed, he, ho, ha]
  · have h := (claim_C9 true "gaa".toList).2.2.2.1 rfl
    have he' : replace2 'a' 'a' ['å'] "gaa".toList = "gå".toList := he
    exact he' ▸ h.1

/-- C10: the CLI dispatch runs the search selected by the classifier's
mode string; only in exact mode, an empty exact result triggers a second
prefix search with `include_expr=True` whose result is returned instead;
every other mode returns its (possibly empty) result as-is. -/
theorem claim_C10 (C : Corpus) (en : Bool)
    (ratio : List Char → List Char → Score) (th : Score) (q : List Char) :
    (search_exact C.articles en q = [] →
      run_search C en ratio th "exact" q = search_prefix C.articles en q true) ∧
    (search_exact C.articles en q ≠ [] →
      run_search C en ratio th "exact" q = search_exact C.articles en q) ∧
    run_search C en ratio th "prefix" q = search_prefix C.articles en q false ∧
    run_search C en ratio th "anywhere_term" q =
      search_anywhere_term C.articles en q false ∧
    run_search C en ratio th "fulltext" q = search_fulltext C en q false ∧
    run_search C en ratio th "fuzzy" q =
      search_fuzzy ratio C.articles en q th false ∧
    run_search C en ratio th "anywhere" q = search_anywhere C en q false ∧
    run_search C en ratio th "expressions_only" q =
      search_expressions_only C.articles en q := by
  refine ⟨fun he => ?_, fun hne => ?_, ?_, ?_, ?_, ?_, ?_, ?_⟩
  · simp [run_search, he]
  · simp [run_search, List.isEmpty_iff, hne]
  · simp [run_search]
  · simp [run_search]
  · simp [run_search]
  · simp [run_search]
  · simp [run_search]
  · simp [run_search]

/-- Witness for C10: on the corpus `exCorpus` the exact search for `hu`
is empty and the dispatch returns the prefix fallback, which finds the
entry `hus`. -/
theorem claim_C10_witness :
    search_exact exCorpus.articles false "hu".toList = [] ∧
    run_search exCorpus false ratioC 60 "exact" "hu".toList =
      search_prefix exCorpus.articles false "hu".toList true := by
  refine ⟨by decide, ?_⟩
  exact (claim_C10 exCorpus false ratioC 60 "hu".toList).1 (by decide)

/-- C4: under unique article ids, the fuzzy search includes an entry (not
excluded by the expression filter) exactly when some variant's similarity
against the primary lemma, or the maximum similarity over the `all_lemmas`
elements, reaches the threshold; the scored match list is ordered by
descending recorded score with ties broken by ascending lemma length; and
on the concrete corpus `dbFz` (scores 0.61 then 0.9 in table order,
threshold 0.6) the higher-scoring entry id 2 is ranked first despite its
longer lemma and later table position. -/
theorem claim_C4 {Sc : Type} [LinearOrder Sc] [Zero Sc]
    (ratio : List Char → List Char → Sc) (db : List Article)
    (en : Bool) (q : List Char) (th : Sc) (ie : Bool)
    (h : (db.map Article.article_id).Nodup) :
    (∀ a, a ∈ search_fuzzy ratio db en q th ie ↔
      a ∈ db ∧ exprOK ie a = true ∧
        ∃ v ∈ apply_character_replacement en q,
          (th ≤ similarity ratio v a.lemma_ ∨ th ≤ fuzzyMax ratio v a)) ∧
    (fuzzySorted ratio db en q th ie).Pairwise
      (fun p q' => fuzzyLt q' p = false) ∧
    (search_fuzzy ratioC dbFz false "x".toList 60 false).map
      Article.article_id = [2, 1] := by
  refine ⟨fun a => search_fuzzy_mem_iff h, ?_, ?_⟩
  · exact pairwise_sortStable fuzzyLt_asymm fuzzyLt_negtrans _
  · decide

/-- Witness for C4: the membership characterisation instantiated on the
concrete corpus `dbFz` with the concrete ratio `ratioC`. -/
theorem claim_C4_witness :
    mkArt 2 "abcdef".toList none (some "NOUN".toList) none none ∈
      search_fuzzy ratioC dbFz false "x".toList 60 false := by
  have h := (claim_C4 ratioC dbFz false "x".toList 60 false
    (by decide)).1 (mkArt 2 "abcdef".toList none (some "NOUN".toList) none none)
  refine h.mpr ⟨by decide, by decide, "x".toList, by decide, Or.inl (by decide)⟩

/-- The seen-quote set of the example-finder loop really de-duplicates:
accepted rows have pairwise distinct quotes, none of them in the initial
seen set. -/
theorem acceptStep_cons (v : List Char) (r : ExampleHit)
    (rest : List (List Char × ExampleHit)) (seen : List (List Char)) :
    acceptStep ((v, r) :: rest) seen =
      if !r.quote.isEmpty && !seen.contains r.quote then
        if acceptQuote v r.quote then r :: acceptStep rest (r.quote :: seen)
        else acceptStep rest seen
      else acceptStep rest seen := rfl

theorem acceptStep_nodup_quotes (l : List (List Char × ExampleHit)) :
    ∀ seen : List (List Char),
      ((acceptStep l seen).map ExampleHit.quote).Nodup ∧
      ∀ r ∈ acceptStep l seen, r.quote ∉ seen := by
  induction l with
  | nil => intro seen; simp [acceptStep]
  | cons p rest ih =>
    intro seen
    obtain ⟨v, r⟩ := p
    rw [acceptStep_cons]
    by_cases h1 : (!r.quote.isEmpty && !seen.contains r.quote) = true
    · rw [if_pos h1]
      have hns : r.quote ∉ seen := by
        intro hmem
        rw [Bool.and_eq_true, Bool.not_eq_true', Bool.not_eq_true'] at h1
        have hc : seen.contains r.quote = true := List.elem_iff.mpr hmem
        rw [h1.2] at hc
        cases hc
      by_cases h2 : acceptQuote v r.quote = true
      · rw [if_pos h2]
        obtain ⟨hnd, hseen⟩ := ih (r.quote :: seen)
        refine ⟨?_, fun s hs => ?_⟩
        · simp only [List.map_cons, List.nodup_cons]
          refine ⟨fun hmem => ?_, hnd⟩
          obtain ⟨s, hs, hsq⟩ := List.mem_map.mp hmem
          exact (hseen s hs) (hsq ▸ List.mem_cons_self _ _)
        · rcases List.mem_cons.mp hs with hs' | hs'
          · exact hs' ▸ hns
          · exact fun hmem =>
              (hseen s hs') (List.mem_cons_of_mem _ hmem)
      · rw [if_neg h2]
        exact ih seen
    · rw [if_neg h1]
      exact ih seen

/-- C8: `search_all_examples` keeps at most one example per exact quote
text, returns its output sorted ascending by the owning entry's lemma, and
the sort is stable: for each lemma, the output rows equal the accepted rows
in retrieval order. -/
theorem claim_C8 (C : Corpus) (en : Bool) (q : List Char) :
    ((search_all_examples C en q).map ExampleHit.quote).Nodup ∧
    (search_all_examples C en q).Pairwise (fun r s => exLemmaLt s r = false) ∧
    ∀ L : List Char,
      (search_all_examples C en q).filter (fun r => r.lemma_ == L) =
        (acceptedExamples C en q).filter (fun r => r.lemma_ == L) := by
  refine ⟨?_, ?_, fun L => ?_⟩
  · have hperm :=
      (sortStable_perm exLemmaLt (acceptedExamples C en q)).map ExampleHit.quote
    exact hperm.nodup_iff.mpr (acceptStep_nodup_quotes _ []).1
  · exact pairwise_sortStable exLemmaLt_asymm exLemmaLt_negtrans _
  · refine filter_sortStable (fun a b hpa hpb => ?_) _
    have ha := beq_iff_eq.mp hpa
    have hb := beq_iff_eq.mp hpb
    show charListLt a.lemma_ b.lemma_ = false
    rw [ha, hb]
    exact charListLt_irrefl L

/-- C1 (code bug): the acceptance test of `search_all_examples` rejects the
quote `Han gikk til huset.` for the query `huset` (and for `hus`), because
the pattern built from `r'\\b'` searches for a literal backslash-`b` text
and the whitespace-split fallback compares against the token `huset.` with
its trailing period; the quote does reach the acceptance test (the SQL
prefilter returns it), yet the whole search returns nothing. -/
theorem claim_C1 :
    acceptQuote "huset".toList "Han gikk til huset.".toList = false ∧
    acceptQuote "hus".toList "Han gikk til huset.".toList = false ∧
    (exampleRows exCorpus "huset".toList).length = 1 ∧
    search_all_examples exCorpus false "huset".toList = [] ∧
    search_all_examples exCorpus false "hus".toList = [] := by
  decide

end Ordb
